import Mathlib

/-!
Verification development for the texture-notes path-identity engine and
compilation orchestrator.

The Rust sources are embedded shallowly:
* `src/lib/src/helpers/fs.rs` — `naively_normalize_path`, `relative_path_from`;
* `src/lib/src/subjects.rs` — `Subject` and its methods;
* `src/src/shelf.rs` — `Shelf::set_path` and validity;
* the compilation orchestrator (`compile.rs`, not present in the sources)
  is modelled from the spec.

Paths are modelled with unix rules (separator `'/'`, a path is absolute iff
it starts with `'/'`).  Text is `String`/`List Char`; `Vec` push/pop at the
end of a Rust vector is embedded as push/pop at the head of a Lean list with
a final `reverse` (and, where the claim speaks of the stack "in order", an
equivalent end-append formulation is proved equal).  Fallible code returns
`Option`/`Except`; a possible panic is modelled as an `Option` layer.
-/

namespace TextureNotes

/-- Path components, as in Rust `std::path::Component` on unix
(`Prefix` does not occur on unix and is omitted). -/
inductive Comp where
  | root
  | curDir
  | parentDir
  | named (t : List Char)
deriving DecidableEq, Repr

/-- The text of a component, as `Component::as_os_str` renders it. -/
def compText : Comp → List Char
  | .root => ['/']
  | .curDir => ['.']
  | .parentDir => ['.', '.']
  | .named t => t

/-- A non-special path chunk becomes `ParentDir` when it is `".."`,
otherwise a `Normal` (named) component. -/
def toComp (t : List Char) : Comp :=
  if t = ['.', '.'] then Comp.parentDir else Comp.named t

/-- `Path::is_absolute` on unix: the path has a root, i.e. starts with `'/'`. -/
def hasRoot (s : List Char) : Bool :=
  s.head? == some '/'

/-- Rust keeps a leading `"."` chunk as a `CurDir` component (only at the very
beginning of a relative path); all other `"."` chunks are normalized away. -/
def includeCurDir (s : List Char) : Bool :=
  !hasRoot s && ((s.splitOn '/').head? == some ['.'])

/-- The non-special chunks of a path string: split on `'/'`, dropping empty
chunks and `"."` chunks, as `Path::components` does. -/
def pathChunks (s : List Char) : List (List Char) :=
  (s.splitOn '/').filter (fun c => decide (c ≠ [] ∧ c ≠ ['.']))

/-- `Path::components` on unix: an optional `RootDir`, an optional leading
`CurDir`, then the remaining chunks. -/
def components (s : List Char) : List Comp :=
  (if hasRoot s then [Comp.root] else [])
    ++ (if includeCurDir s then [Comp.curDir] else [])
    ++ (pathChunks s).map toComp

/-- One step of the loop of `naively_normalize_path` (fs.rs:164-183).  The
Rust `Vec` pushes and pops at its end; here the stack top is the list head
and the final stack is reversed. -/
def normStep (stack : List Comp) (c : Comp) : List Comp :=
  match c with
  | .curDir => stack
  | .parentDir =>
    match stack with
    | [] => [Comp.parentDir]
    | top :: rest =>
      if top = Comp.parentDir then Comp.parentDir :: top :: rest else rest
  | c => c :: stack

/-- The component stack built by `naively_normalize_path`, in `Vec` order. -/
def normStack (s : List Char) : List Comp :=
  ((components s).foldl normStep []).reverse

/-- `PathBuf::push` on unix: an absolute path replaces the buffer; otherwise
the path is appended, inserting a `'/'` separator when the buffer is
non-empty and does not already end with one. -/
def pushStr (acc t : List Char) : List Char :=
  if t.head? = some '/' then t
  else if acc = [] then t
  else if acc.getLast? = some '/' then acc ++ t
  else acc ++ '/' :: t

/-- Building a `PathBuf` by pushing each component in order
(fs.rs:185-188), rendered as text. -/
def renderComps (l : List Comp) : List Char :=
  l.foldl (fun acc c => pushStr acc (compText c)) []

/-- `naively_normalize_path` (fs.rs:159-194): collapse the components onto a
stack, rebuild the path, and return `none` when the rebuilt path is the
empty string. -/
def naively_normalize_path (s : String) : Option String :=
  let p := renderComps (normStack s.data)
  if p = [] then none else some (String.mk p)

/-- Rendering the result of `naively_normalize_path` back to text (the empty
string when normalization returned nothing). -/
def normalize_as_text (s : String) : String :=
  (naively_normalize_path s).getD ""

/-- The component walk of `relative_path_from` (fs.rs:119-146): the loop over
both component iterators, with `common` the `common_components` vector. -/
def relWalk (dst base common : List Comp) : Option (List Comp) :=
  match dst, base with
  | [], [] => some common
  | c :: rest, [] => some (common ++ c :: rest)
  | [], _ :: base' => relWalk [] base' (common ++ [Comp.parentDir])
  | a :: dst', b :: base' =>
    if common = [] ∧ a = b then relWalk dst' base' common
    else if b = Comp.curDir then relWalk dst' base' (common ++ [a])
    else if b = Comp.parentDir then none
    else
      some (common ++ Comp.parentDir :: base'.map (fun _ => Comp.parentDir)
              ++ a :: dst')
termination_by dst.length + base.length
decreasing_by all_goals simp_arith

/-- `relative_path_from` (fs.rs:99-150): when exactly one of the paths is
absolute, return `dst` verbatim iff `dst` is the absolute one; otherwise
walk the component sequences and rebuild the collected components. -/
def relative_path_from (dst base : String) : Option String :=
  if hasRoot base.data ≠ hasRoot dst.data then
    if hasRoot dst.data then some dst else none
  else
    (relWalk (components dst.data) (components base.data) []).map
      (fun cs => String.mk (renderComps cs))

/-! ## Subjects (subjects.rs) -/

/-- `str::trim`, restricted to the ASCII whitespace that
`Char.isWhitespace` models. -/
def trimChars (l : List Char) : List Char :=
  ((l.dropWhile (fun c => c.isWhitespace)).reverse.dropWhile
    (fun c => c.isWhitespace)).reverse

/-- ASCII alphanumeric characters — the word characters of the slug
transform (digits, upper-case and lower-case letters). -/
def isWordChar (c : Char) : Bool :=
  decide ((48 ≤ c.toNat ∧ c.toNat ≤ 57) ∨ (65 ≤ c.toNat ∧ c.toNat ≤ 90)
    ∨ (97 ≤ c.toNat ∧ c.toNat ≤ 122))

/-- ASCII lower-casing of a character. -/
def asciiLower (c : Char) : Char :=
  if 65 ≤ c.toNat ∧ c.toNat ≤ 90 then Char.ofNat (c.toNat + 32) else c

/-- The word chunks of a segment: maximal runs of word characters. -/
def slugWords (l : List Char) : List (List Char) :=
  (l.splitOnP (fun c => !isWordChar c)).filter (fun w => !w.isEmpty)

/-- Modelled from the spec: the per-segment slug transform of
`Subject::path` (subjects.rs:209 uses the external `heck` crate's
`to_kebab_case`, whose source is not part of this repository).  Per the
spec: lower-case, non-alphanumeric runs collapse to a single hyphen,
leading/trailing hyphens trimmed. -/
def slug (l : List Char) : List Char :=
  ['-'].intercalate ((slugWords l).map (List.map asciiLower))

/-- The per-component transform of `Subject::path` (subjects.rs:204-213):
`Normal` components are slugged, all other components pass through. -/
def segSlug (c : Comp) : Comp :=
  match c with
  | .named t => .named (slug t)
  | c => c

/-- The subject struct (subjects.rs:24-27).  The stored field is called
`name` in the source and is returned by `Subject::full_name`; it is named
`full_name` here because `name` is the derived method below. -/
structure Subject where
  full_name : String
deriving DecidableEq, Repr

/-- `Subject::new` (subjects.rs:121-137): normalize the input, trim every
component's text, and collect the trimmed texts back into a path. -/
def Subject.new (s : String) : Subject :=
  match naively_normalize_path s with
  | some t =>
    ⟨String.mk (((components t.data).map
        (fun c => trimChars (compText c))).foldl pushStr [])⟩
  | none => ⟨""⟩

/-- `Path::file_name` on unix: the last component when it is a `Normal`
component, nothing otherwise. -/
def fileName (s : List Char) : Option (List Char) :=
  match (components s).getLast? with
  | some (Comp.named t) => some t
  | _ => none

/-- `split_file_at_dot` as used by `Path::file_stem`: everything before the
last `'.'`, except that a name with no `'.'`, a name whose last `'.'` is its
first character, and the name `".."` are returned whole. -/
def stemOfFileName (t : List Char) : List Char :=
  if t = ['.', '.'] then t
  else
    let parts := t.splitOn '.'
    if parts.length = 1 then t
    else if ['.'].intercalate parts.dropLast = [] then t
    else ['.'].intercalate parts.dropLast

/-- `Subject::name` (subjects.rs:191-198): the file stem of the stored
path.  The source unwraps twice; the impossible results are modelled as
`none` (a panic). -/
def Subject.name (s : Subject) : Option String :=
  (fileName s.full_name.data).map (fun t => String.mk (stemOfFileName t))

/-- `Subject::path` (subjects.rs:201-214): every `Normal` component of the
stored path is slugged, other components pass through, and the results are
collected back into a path. -/
def Subject.path (s : Subject) : String :=
  String.mk (((components s.full_name.data).map
    (fun c => compText (segSlug c))).foldl pushStr [])

/-! ## Shelf (shelf.rs) and the filesystem model

The filesystem is modelled as the list of existing directories, stored
without trailing separators; a path denotes a directory iff it equals one
of them after trailing separators are stripped. -/

/-- Strip trailing `'/'` separators from a path. -/
def stripTrailingSep (p : List Char) : List Char :=
  (p.reverse.dropWhile (fun c => c = '/')).reverse

/-- Modelled from the spec: the filesystem directory-existence check
(`Path::is_dir`) over the model filesystem `fs`. -/
def isDir (fs : List String) (p : List Char) : Bool :=
  fs.any (fun d => d.data == stripTrailingSep p)

/-- The shelf struct (shelf.rs:43-45). -/
structure Shelf where
  path : String
deriving DecidableEq, Repr

/-- `Shelf::is_valid` (shelf.rs:98-100): the stored path is a directory. -/
def Shelf.is_valid (sh : Shelf) (fs : List String) : Bool :=
  isDir fs sh.path.data

/-- `Shelf::set_path` (shelf.rs:81-95): rename the directory when the shelf
is valid (propagating a rename failure before the stored path is touched),
then store the new path and return the old one.  Whether the OS rename
succeeds is the environment parameter `renameOk`. -/
def Shelf.set_path (sh : Shelf) (dest : String) (fs : List String)
    (renameOk : Bool) : Shelf × Except String String :=
  let old_path := sh.path
  if sh.is_valid fs then
    if renameOk then ({ path := dest }, Except.ok old_path)
    else (sh, Except.error "IoError")
  else ({ path := dest }, Except.ok old_path)

/-- `Subject::path_in_shelf` (subjects.rs:73-81): the shelf path with the
subject path pushed onto it. -/
def Subject.path_in_shelf (s : Subject) (sh : Shelf) : String :=
  String.mk (pushStr sh.path.data s.path.data)

/-- `Subject::is_item_valid` (subjects.rs:84-89). -/
def Subject.is_item_valid (s : Subject) (sh : Shelf) (fs : List String) :
    Bool :=
  isDir fs (s.path_in_shelf sh).data

/-- `Subject::from_shelf` (subjects.rs:141-151): build the subject and fail
with the resolved path unless that path is an existing directory. -/
def Subject.from_shelf (name : String) (sh : Shelf) (fs : List String) :
    Except String Subject :=
  let subject := Subject.new name
  if !subject.is_item_valid sh fs then
    Except.error (subject.path_in_shelf sh)
  else Except.ok subject

/-! ## Claim-side formulations -/

/-- The normalization step exactly as the spec describes it, on a stack
written in order with its top at the end: a `CurrentDir` component is
dropped, a `ParentDir` component is pushed when the stack is empty or its
top is itself a `ParentDir` and otherwise pops the top, and every other
component is pushed. -/
def claimStep (stack : List Comp) (c : Comp) : List Comp :=
  match c with
  | .curDir => stack
  | .parentDir =>
    if stack = [] ∨ stack.getLast? = some Comp.parentDir
    then stack ++ [Comp.parentDir] else stack.dropLast
  | c => stack ++ [c]

/-- The claim-side output stack: the components processed left to right. -/
def claimStack (s : List Char) : List Comp :=
  (components s).foldl claimStep []

/-- The loop body of `naively_normalize_path` with the source's index
`normalized_components[normalized_components.len() - 1]` made explicit: the
index is only reached when the emptiness test (the left operand of the
short-circuit `||`) failed, and an out-of-bounds access is modelled as
`none` (a panic). -/
def checkedStep (v : List Comp) (c : Comp) : Option (List Comp) :=
  match c with
  | .curDir => some v
  | .parentDir =>
    if v.isEmpty then some (v ++ [Comp.parentDir])
    else
      match v[v.length - 1]? with
      | none => none
      | some top =>
        some (if top = Comp.parentDir then v ++ [Comp.parentDir]
              else v.dropLast)
  | c => some (v ++ [c])

/-- `naively_normalize_path` with the possible panic of its stack indexing
made explicit: the outer `none` is a panic, the inner value is the
function's result. -/
def checkedNormalize (s : String) : Option (Option String) :=
  ((components s.data).foldlM checkedStep []).map fun v =>
    let p := renderComps v
    if p = [] then none else some (String.mk p)

/-- The final path segment of a string, per the spec's words: the last
non-empty `'/'`-separated chunk. -/
def finalSegment (s : String) : Option String :=
  (((s.data.splitOn '/').filter (fun c => !c.isEmpty)).getLast?).map
    String.mk

/-- A per-batch compile report: the working directory and the identifiers
that compiled and failed. -/
structure CompileReport where
  path : String
  compiled : List String
  failed : List String
deriving DecidableEq, Repr

/-- Modelled from the spec: the compilation orchestrator
(`mod compile` of `src/main.rs`; its file `compile.rs` is not among the
sources).  A batch of `units` runs in a worker pool of size `K`; the
external command's outcome for a unit is `ok`, and the concurrent
completion order is an arbitrary permutation `order` of the batch.  Each
completed unit is recorded in exactly one list of the report according to
its exit status. -/
def runBatch (workdir : String) (ok : String → Bool) (_K : Nat)
    (order : List String) : CompileReport :=
  { path := workdir
    compiled := order.filter ok
    failed := order.filter (fun u => !ok u) }

/-! ## Shape invariants of normalized stacks -/

/-- A text that can appear in a `Normal` component produced by
`Path::components`: non-empty, not a special chunk, and free of the
separator. -/
def goodSeg (t : List Char) : Prop :=
  t ≠ [] ∧ t ≠ ['.'] ∧ t ≠ ['.', '.'] ∧ '/' ∉ t

instance : DecidablePred goodSeg := fun t => by
  unfold goodSeg
  infer_instance

/-- Every component is a `Normal` component with a `goodSeg` text. -/
def allNamed (l : List Comp) : Prop :=
  ∀ c ∈ l, ∃ t, c = Comp.named t ∧ goodSeg t

/-- Every component is a `ParentDir`. -/
def allPar (l : List Comp) : Prop :=
  ∀ c ∈ l, c = Comp.parentDir

/-- The shape of a normalized stack, in order: an optional root, then
surviving `ParentDir`s (none when rooted), then `Normal` components. -/
def GoodStack (l : List Comp) : Prop :=
  ∃ r ps ns, l = r ++ ps ++ ns ∧ (r = [] ∨ r = [Comp.root]) ∧ allPar ps
    ∧ allNamed ns ∧ (r ≠ [] → ps = [])

/-- The same shape on the reversed (head-is-top) working stack. -/
def RevShape (l : List Comp) : Prop :=
  ∃ ns ps r, l = ns ++ ps ++ r ∧ allNamed ns ∧ allPar ps
    ∧ (r = [] ∨ r = [Comp.root]) ∧ (r ≠ [] → ps = [])

/-! ## Lemmas about path chunks -/

theorem splitOnP_chunk_not_sep {α : Type} (p : α → Bool) :
    ∀ (l : List α), ∀ w ∈ l.splitOnP p, ∀ x ∈ w, p x = false := by
  intro l
  induction l with
  | nil =>
    intro w hw x hx
    simp only [List.splitOnP_nil, List.mem_singleton] at hw
    subst hw
    exact absurd hx (List.not_mem_nil x)
  | cons a l ih =>
    intro w hw x hx
    rw [List.splitOnP_cons] at hw
    by_cases h : p a
    · rw [if_pos h] at hw
      rcases List.mem_cons.mp hw with hw | hw
      · subst hw; exact absurd hx (List.not_mem_nil x)
      · exact ih w hw x hx
    · rw [if_neg h] at hw
      obtain ⟨h1, t1, e⟩ : ∃ h1 t1, l.splitOnP p = h1 :: t1 := by
        cases hsplit : l.splitOnP p with
        | nil => exact absurd hsplit (List.splitOnP_ne_nil p l)
        | cons h1 t1 => exact ⟨h1, t1, rfl⟩
      rw [e] at hw
      simp only [List.modifyHead] at hw
      rcases List.mem_cons.mp hw with hw | hw
      · subst hw
        rcases List.mem_cons.mp hx with hx | hx
        · subst hx; exact Bool.eq_false_iff.mpr h
        · exact ih h1 (e ▸ List.mem_cons_self h1 t1) x hx
      · exact ih w (e ▸ List.mem_cons_of_mem h1 hw) x hx

theorem mem_splitOn_sep_free (s : List Char) (w : List Char)
    (hw : w ∈ s.splitOn '/') : '/' ∉ w := by
  intro hx
  have := splitOnP_chunk_not_sep (fun c => c == '/') s w hw '/' hx
  simp at this

theorem chunkComps_good (s : List Char) :
    ∀ c ∈ (pathChunks s).map toComp,
      c = Comp.parentDir ∨ ∃ t, c = Comp.named t ∧ goodSeg t := by
  intro c hc
  simp only [List.mem_map, pathChunks, List.mem_filter,
    decide_eq_true_eq] at hc
  obtain ⟨t, ⟨htm, htn⟩, rfl⟩ := hc
  by_cases hdd : t = ['.', '.']
  · left; simp [toComp, hdd]
  · right
    refine ⟨t, by simp [toComp, hdd], htn.1, htn.2, hdd,
      mem_splitOn_sep_free s t htm⟩

/-! ## The Vec stack and the claim-side stack agree -/

theorem normStep_reverse (a : List Comp) (c : Comp) :
    (normStep a c).reverse = claimStep a.reverse c := by
  cases c with
  | curDir => simp [normStep, claimStep]
  | parentDir =>
    cases a with
    | nil => simp [normStep, claimStep]
    | cons top rest =>
      by_cases h : top = Comp.parentDir
      · subst h
        simp [normStep, claimStep, List.getLast?_concat]
      · simp only [normStep, if_neg h, claimStep, List.reverse_cons]
        rw [if_neg, List.dropLast_concat]
        simp [List.getLast?_concat, h]
  | root => simp [normStep, claimStep]
  | named t => simp [normStep, claimStep]

theorem foldl_normStep_reverse (cs : List Comp) :
    ∀ a : List Comp, (cs.foldl normStep a).reverse = cs.foldl claimStep a.reverse := by
  induction cs with
  | nil => intro a; simp
  | cons c cs ih =>
    intro a
    rw [List.foldl_cons, List.foldl_cons, ih, normStep_reverse]

theorem normStack_eq_claimStack (s : List Char) :
    normStack s = claimStack s := by
  unfold normStack claimStack
  rw [foldl_normStep_reverse]
  rfl

/-- C1: `naively_normalize_path` processes the input's components left to
right with an output stack — a `CurrentDir` component is dropped
unconditionally, a `Named` or `Root` component is always pushed, a
`ParentDir` component is pushed when the stack is empty or its top is
itself a `ParentDir` and otherwise pops the top (`claimStep`/`claimStack`
state these rules verbatim, on the stack written in order) — and it
returns `none` exactly when the path joined from the final stack is the
empty string, and otherwise `some` of the stack contents in order. -/
theorem naively_normalize_path_spec (s : String) :
    normStack s.data = claimStack s.data
    ∧ naively_normalize_path s =
        (if renderComps (claimStack s.data) = [] then none
         else some (String.mk (renderComps (claimStack s.data)))) := by
  refine ⟨normStack_eq_claimStack s.data, ?_⟩
  unfold naively_normalize_path
  rw [normStack_eq_claimStack]

/-! ## C9: totality and panic-freedom -/

theorem getElem?_length_sub_one (v : List Comp) (h : v ≠ []) :
    v[v.length - 1]? = v.getLast? := by
  induction v with
  | nil => exact absurd rfl h
  | cons a w ih =>
    cases w with
    | nil => rfl
    | cons b t =>
      have hne : b :: t ≠ [] := List.cons_ne_nil b t
      have : (a :: b :: t).length - 1 = ((b :: t).length - 1) + 1 := by
        simp [List.length_cons]
      rw [this, List.getElem?_cons_succ, ih hne, List.getLast?_cons_cons]

theorem checkedStep_eq (v : List Comp) (c : Comp) :
    checkedStep v c = some (claimStep v c) := by
  cases c with
  | curDir => rfl
  | parentDir =>
    by_cases h : v = []
    · subst h; rfl
    · have hne : v.isEmpty = false := by
        simpa [List.isEmpty_iff] using h
      have hlast : ∃ top, v.getLast? = some top := by
        cases hv : v.getLast? with
        | none => exact absurd (List.getLast?_eq_none_iff.mp hv) h
        | some top => exact ⟨top, rfl⟩
      obtain ⟨top, htop⟩ := hlast
      simp only [checkedStep, hne, Bool.false_eq_true, if_false,
        getElem?_length_sub_one v h, htop, claimStep]
      by_cases hpd : top = Comp.parentDir
      · simp [hpd]
      · simp [h, hpd]
  | root => rfl
  | named t => rfl

theorem foldlM_checkedStep (cs : List Comp) :
    ∀ v : List Comp, cs.foldlM checkedStep v = some (cs.foldl claimStep v) := by
  induction cs with
  | nil => intro v; rfl
  | cons c cs ih =>
    intro v
    rw [List.foldlM_cons, checkedStep_eq]
    simpa using ih (claimStep v c)

/-- C9: `naively_normalize_path` is total over any string input — the
embedding below runs the source's loop with its stack indexing modelled as
a possible panic (`checkedNormalize`), and for every input the run
completes without panicking, returning exactly the value of the total
function.  The embedding is a pure function: no filesystem access occurs. -/
theorem naively_normalize_path_total (s : String) :
    checkedNormalize s = some (naively_normalize_path s) := by
  unfold checkedNormalize naively_normalize_path
  rw [foldlM_checkedStep, normStack_eq_claimStack]
  rfl

/-! ## C6 and C8: the path differ -/

/-- C6: when exactly one of `dst`/`base` is absolute, `relative_path_from`
returns `some dst` verbatim if `dst` is the absolute one and `none` if
`dst` is the relative one (fs.rs:106-111). -/
theorem relative_path_from_abs_mismatch (dst base : String)
    (h : hasRoot dst.data ≠ hasRoot base.data) :
    relative_path_from dst base =
      if hasRoot dst.data then some dst else none := by
  unfold relative_path_from
  rw [if_pos (Ne.symm h)]

theorem relative_path_from_abs_mismatch_witness :
    (hasRoot "/a".data ≠ hasRoot "b".data
      ∧ relative_path_from "/a" "b" =
          if hasRoot "/a".data then some "/a" else none)
    ∧ (hasRoot "c".data ≠ hasRoot "/d".data
      ∧ relative_path_from "c" "/d" =
          if hasRoot "c".data then some "c" else none) :=
  ⟨⟨by decide, relative_path_from_abs_mismatch "/a" "b" (by decide)⟩,
   ⟨by decide, relative_path_from_abs_mismatch "c" "/d" (by decide)⟩⟩

/-- C8: in the walk of `relative_path_from` over two relative paths, a
`base` component equal to `CurrentDir` reached at a divergence point (the
common-prefix guard `common_components.is_empty() && a == b` fails) is
absorbed: both cursors advance, no `ParentDir` is emitted for it, and the
`dst` component `a` is pushed onto the collected components
(fs.rs:134). -/
theorem relWalk_curdir_step (a : Comp) (dst' base' common : List Comp)
    (h : ¬(common = [] ∧ a = Comp.curDir)) :
    relWalk (a :: dst') (Comp.curDir :: base') common
      = relWalk dst' base' (common ++ [a]) := by
  rw [relWalk]
  rw [if_neg h, if_pos rfl]

/-! ## The stack produced by normalization is well shaped -/

theorem allNamed_nil : allNamed [] := by
  intro c hc
  exact absurd hc (List.not_mem_nil c)

theorem allPar_nil : allPar [] := by
  intro c hc
  exact absurd hc (List.not_mem_nil c)

theorem revShape_nil : RevShape [] :=
  ⟨[], [], [], rfl, allNamed_nil, allPar_nil, Or.inl rfl, fun _ => rfl⟩

theorem revShape_root : RevShape [Comp.root] :=
  ⟨[], [], [Comp.root], rfl, allNamed_nil, allPar_nil, Or.inr rfl,
    fun _ => rfl⟩

theorem revShape_step (st : List Comp) (c : Comp) (hst : RevShape st)
    (hc : c = Comp.parentDir ∨ ∃ t, c = Comp.named t ∧ goodSeg t) :
    RevShape (normStep st c) := by
  obtain ⟨ns, ps, r, rfl, hns, hps, hr, hrp⟩ := hst
  rcases hc with rfl | ⟨t, rfl, ht⟩
  · cases ns with
    | cons n ns' =>
      obtain ⟨tn, hn, htn⟩ := hns n (List.mem_cons_self n ns')
      subst hn
      refine ⟨ns', ps, r, ?_, fun c hc => hns c (List.mem_cons_of_mem _ hc),
        hps, hr, hrp⟩
      simp [normStep]
    | nil =>
      cases ps with
      | cons p ps' =>
        have hp := hps p (List.mem_cons_self p ps')
        subst hp
        have hr0 : r = [] := by
          by_contra hne
          exact List.cons_ne_nil _ _ (hrp hne)
        subst hr0
        refine ⟨[], Comp.parentDir :: Comp.parentDir :: ps', [], ?_,
          allNamed_nil, ?_, Or.inl rfl, fun h => absurd rfl h⟩
        · simp [normStep]
        · intro c hc
          rcases List.mem_cons.mp hc with rfl | hc
          · rfl
          · exact hps c hc
      | nil =>
        rcases hr with rfl | rfl
        · exact ⟨[], [Comp.parentDir], [], by simp [normStep],
            allNamed_nil, fun c hc => List.mem_singleton.mp hc,
            Or.inl rfl, fun h => absurd rfl h⟩
        · exact ⟨[], [], [], by simp [normStep], allNamed_nil, allPar_nil,
            Or.inl rfl, fun _ => rfl⟩
  · refine ⟨Comp.named t :: ns, ps, r, by simp [normStep], ?_, hps, hr, hrp⟩
    intro c hc
    rcases List.mem_cons.mp hc with rfl | hc
    · exact ⟨t, rfl, ht⟩
    · exact hns c hc

theorem revShape_foldl (cs : List Comp) :
    ∀ st, RevShape st →
      (∀ c ∈ cs, c = Comp.parentDir ∨ ∃ t, c = Comp.named t ∧ goodSeg t) →
      RevShape (cs.foldl normStep st) := by
  induction cs with
  | nil => intro st hst _; exact hst
  | cons c cs ih =>
    intro st hst hcs
    rw [List.foldl_cons]
    exact ih (normStep st c)
      (revShape_step st c hst (hcs c (List.mem_cons_self c cs)))
      (fun d hd => hcs d (List.mem_cons_of_mem c hd))

theorem revShape_reverse_good (l : List Comp) (h : RevShape l) :
    GoodStack l.reverse := by
  obtain ⟨ns, ps, r, rfl, hns, hps, hr, hrp⟩ := h
  have hrrev : r.reverse = r := by rcases hr with rfl | rfl <;> rfl
  refine ⟨r, ps.reverse, ns.reverse, ?_, hr, ?_, ?_, ?_⟩
  · simp [List.reverse_append, hrrev]
  · intro c hc; exact hps c (List.mem_reverse.mp hc)
  · intro c hc; exact hns c (List.mem_reverse.mp hc)
  · intro hne; simp [hrp hne]

theorem includeCurDir_of_hasRoot (s : List Char) (h : hasRoot s = true) :
    includeCurDir s = false := by
  simp [includeCurDir, h]

theorem normStack_good (s : List Char) : GoodStack (normStack s) := by
  unfold normStack components
  rw [List.foldl_append, List.foldl_append]
  apply revShape_reverse_good
  refine revShape_foldl _ _ ?_ (chunkComps_good s)
  by_cases hR : hasRoot s
  · rw [if_pos hR, includeCurDir_of_hasRoot s hR]
    exact revShape_root
  · rw [if_neg hR]
    by_cases hC : includeCurDir s
    · rw [if_pos hC]
      exact revShape_nil
    · rw [if_neg hC]
      exact revShape_nil

/-! ## Normalizing a well-shaped stack leaves it unchanged -/

theorem foldl_normStep_named (ns : List Comp) :
    ∀ st, allNamed ns → ns.foldl normStep st = ns.reverse ++ st := by
  induction ns with
  | nil => intro st _; simp
  | cons n ns ih =>
    intro st hns
    obtain ⟨t, rfl, _⟩ := hns n (List.mem_cons_self n ns)
    rw [List.foldl_cons]
    have : normStep st (Comp.named t) = Comp.named t :: st := rfl
    rw [this, ih _ (fun c hc => hns c (List.mem_cons_of_mem _ hc))]
    simp

theorem foldl_normStep_pars (ps : List Comp) :
    ∀ st, allPar ps → allPar st → ps.foldl normStep st = ps.reverse ++ st := by
  induction ps with
  | nil => intro st _ _; simp
  | cons p ps ih =>
    intro st hps hst
    have hp := hps p (List.mem_cons_self p ps)
    subst hp
    rw [List.foldl_cons]
    have hstep : normStep st Comp.parentDir = Comp.parentDir :: st := by
      cases st with
      | nil => rfl
      | cons top rest =>
        have := hst top (List.mem_cons_self top rest)
        simp [normStep, this]
    rw [hstep, ih _ (fun c hc => hps c (List.mem_cons_of_mem _ hc))]
    · simp
    · intro c hc
      rcases List.mem_cons.mp hc with rfl | hc
      · rfl
      · exact hst c hc

theorem goodStack_foldl (l : List Comp) (h : GoodStack l) :
    l.foldl normStep [] = l.reverse := by
  obtain ⟨r, ps, ns, rfl, hr, hps, hns, hrp⟩ := h
  rcases hr with rfl | rfl
  · simp only [List.nil_append]
    rw [List.foldl_append, foldl_normStep_pars ps [] hps allPar_nil,
      foldl_normStep_named ns _ hns]
    simp
  · have hps0 : ps = [] := hrp (by simp)
    subst hps0
    simp only [List.nil_append, List.singleton_append]
    rw [List.foldl_cons]
    have : normStep [] Comp.root = [Comp.root] := rfl
    rw [this, foldl_normStep_named ns _ hns]
    simp

/-! ## Rendering a well-shaped stack and parsing it back -/

theorem intercalate_cons_flatMap {α : Type} (x : α) :
    ∀ (ts : List (List α)) (t : List α),
      [x].intercalate (t :: ts) = t ++ ts.flatMap (fun u => x :: u) := by
  intro ts
  induction ts with
  | nil => intro t; simp [List.intercalate]
  | cons u ts ih =>
    intro t
    have h1 : [x].intercalate (t :: u :: ts) = t ++ x :: [x].intercalate (u :: ts) := by
      simp [List.intercalate]
    rw [h1, ih u]
    simp

theorem getLast?_not_sep (t : List Char) (_h : t ≠ []) (h2 : '/' ∉ t) :
    t.getLast? ≠ some '/' := by
  intro hc
  exact h2 (List.mem_of_getLast?_eq_some hc)

theorem head?_not_sep (t : List Char) (h2 : '/' ∉ t) :
    t.head? ≠ some '/' := by
  intro hc
  exact h2 (List.mem_of_mem_head? (by rw [hc]; exact rfl))

theorem pushStr_sep (acc t : List Char) (hacc : acc ≠ [])
    (hlast : acc.getLast? ≠ some '/') (ht : t.head? ≠ some '/') :
    pushStr acc t = acc ++ '/' :: t := by
  simp [pushStr, ht, hacc, hlast]

theorem foldl_pushStr_texts (ts : List (List Char)) :
    ∀ acc, (∀ t ∈ ts, t ≠ [] ∧ '/' ∉ t) → acc ≠ [] →
      acc.getLast? ≠ some '/' →
      ts.foldl pushStr acc = acc ++ ts.flatMap (fun u => '/' :: u) := by
  induction ts with
  | nil => intro acc _ _ _; simp
  | cons t ts ih =>
    intro acc hts hacc hlast
    obtain ⟨ht1, ht2⟩ := hts t (List.mem_cons_self t ts)
    rw [List.foldl_cons, pushStr_sep acc t hacc hlast (head?_not_sep t ht2)]
    rw [ih _ (fun u hu => hts u (List.mem_cons_of_mem _ hu))]
    · simp
    · simp
    · rw [List.getLast?_append_of_ne_nil _ (by simp)]
      have : ('/' :: t).getLast? = t.getLast? := by
        cases t with
        | nil => exact absurd rfl ht1
        | cons a t => rw [List.getLast?_cons_cons]
      rw [this]
      exact getLast?_not_sep t ht1 ht2

theorem renderComps_eq_foldl_map (l : List Comp) :
    renderComps l = (l.map compText).foldl pushStr [] := by
  rw [List.foldl_map]
  rfl

theorem comps_map_toComp_compText (l : List Comp)
    (h : ∀ c ∈ l, c = Comp.parentDir ∨ ∃ t, c = Comp.named t ∧ goodSeg t) :
    (l.map compText).map toComp = l := by
  rw [List.map_map]
  conv_rhs => rw [← List.map_id l]
  apply List.map_congr_left
  intro c hc
  rcases h c hc with rfl | ⟨t, rfl, ht⟩
  · simp [toComp, compText]
  · simp [toComp, compText, ht.2.2.1]

theorem goodTexts (l : List Comp)
    (h : ∀ c ∈ l, c = Comp.parentDir ∨ ∃ t, c = Comp.named t ∧ goodSeg t) :
    ∀ t ∈ l.map compText, t ≠ [] ∧ t ≠ ['.'] ∧ '/' ∉ t := by
  intro t ht
  obtain ⟨c, hc, rfl⟩ := List.mem_map.mp ht
  rcases h c hc with rfl | ⟨u, rfl, hu⟩
  · refine ⟨by simp [compText], by simp [compText], by simp [compText]⟩
  · exact ⟨hu.1, hu.2.1, hu.2.2.2⟩

theorem splitOn_cons_sep (l : List Char) :
    ('/' :: l).splitOn '/' = [] :: l.splitOn '/' := by
  simp [List.splitOn, List.splitOnP_cons]

theorem components_renderComps (l : List Comp) (h : GoodStack l) :
    components (renderComps l) = l ∧ (renderComps l = [] ↔ l = []) := by
  obtain ⟨r, ps, ns, rfl, hr, hps, hns, hrp⟩ := h
  rcases hr with rfl | rfl
  · simp only [List.nil_append]
    have hm : ∀ c ∈ ps ++ ns,
        c = Comp.parentDir ∨ ∃ t, c = Comp.named t ∧ goodSeg t := by
      intro c hc
      rcases List.mem_append.mp hc with hc | hc
      · exact Or.inl (hps c hc)
      · exact Or.inr (hns c hc)
    have htexts := goodTexts _ hm
    cases hm0 : ps ++ ns with
    | nil =>
      exact ⟨by decide, by simp [renderComps]⟩
    | cons c₀ m' =>
      rw [hm0] at hm htexts
      have hts : (c₀ :: m').map compText = compText c₀ :: m'.map compText :=
        List.map_cons _ _ _
      obtain ⟨ht1, ht2, ht3⟩ :=
        htexts (compText c₀) (by rw [hts]; exact List.mem_cons_self _ _)
      have hrender : renderComps (c₀ :: m')
          = ['/'].intercalate ((c₀ :: m').map compText) := by
        rw [renderComps_eq_foldl_map, hts, List.foldl_cons]
        have hp0 : pushStr [] (compText c₀) = compText c₀ := by
          simp [pushStr, head?_not_sep _ ht3]
        rw [hp0, foldl_pushStr_texts _ _
            (fun t ht =>
              ⟨(htexts t (by rw [hts]; exact List.mem_cons_of_mem _ ht)).1,
               (htexts t (by rw [hts]; exact List.mem_cons_of_mem _ ht)).2.2⟩)
            ht1 (getLast?_not_sep _ ht1 ht3),
          intercalate_cons_flatMap]
      have hsplit : (['/'].intercalate ((c₀ :: m').map compText)).splitOn '/'
          = (c₀ :: m').map compText := by
        apply List.splitOn_intercalate
        · intro t ht
          exact (htexts t ht).2.2
        · simp
      obtain ⟨a, t', hc0⟩ : ∃ a t', compText c₀ = a :: t' := by
        cases hc : compText c₀ with
        | nil => exact absurd hc ht1
        | cons a t' => exact ⟨a, t', rfl⟩
      have ha : a ≠ '/' := fun hav =>
        ht3 (hav ▸ hc0 ▸ List.mem_cons_self a t')
      have haux : ['/'].intercalate ((c₀ :: m').map compText)
          = a :: (t' ++ (m'.map compText).flatMap (fun u => '/' :: u)) := by
        rw [List.map_cons, intercalate_cons_flatMap, hc0]
        rfl
      have hroot : hasRoot (['/'].intercalate ((c₀ :: m').map compText))
          = false := by
        rw [haux]
        simp [hasRoot, ha]
      have hcur : includeCurDir (['/'].intercalate ((c₀ :: m').map compText))
          = false := by
        unfold includeCurDir
        rw [hsplit, List.map_cons, List.head?_cons]
        simp [ht2]
      have hchunks : pathChunks (['/'].intercalate ((c₀ :: m').map compText))
          = (c₀ :: m').map compText := by
        unfold pathChunks
        rw [hsplit]
        apply List.filter_eq_self.mpr
        intro t ht
        simpa using And.intro (htexts t ht).1 (htexts t ht).2.1
      constructor
      · rw [hrender]
        unfold components
        rw [hroot, hcur, hchunks, comps_map_toComp_compText _ hm]
        simp
      · rw [hrender, haux]
        simp
  · have hps0 : ps = [] := hrp (by simp)
    subst hps0
    simp only [List.singleton_append, List.nil_append]
    have hmns : ∀ c ∈ ns, c = Comp.parentDir ∨ ∃ t, c = Comp.named t ∧ goodSeg t :=
      fun c hc => Or.inr (hns c hc)
    have htexts := goodTexts _ hmns
    have hpush0 : pushStr [] ['/'] = ['/'] := rfl
    cases ns with
    | nil =>
      exact ⟨by decide, by decide⟩
    | cons n ns' =>
      obtain ⟨tn, hn, htn⟩ := hns n (List.mem_cons_self n ns')
      have hts : (n :: ns').map compText = compText n :: ns'.map compText :=
        List.map_cons _ _ _
      obtain ⟨ht1, ht2, ht3⟩ :=
        htexts (compText n) (hts ▸ List.mem_cons_self _ _)
      have hstep : pushStr ['/'] (compText n) = '/' :: compText n := by
        unfold pushStr
        rw [if_neg (head?_not_sep _ ht3), if_neg (by simp), if_pos (by rfl)]
        rfl
      have hlast : ('/' :: compText n).getLast? ≠ some '/' := by
        obtain ⟨a, t', hc0⟩ : ∃ a t', compText n = a :: t' := by
          cases hc : compText n with
          | nil => exact absurd hc ht1
          | cons a t' => exact ⟨a, t', rfl⟩
        rw [hc0, List.getLast?_cons_cons]
        exact getLast?_not_sep _ (List.cons_ne_nil a t')
          (by rw [← hc0]; exact ht3)
      have hrender : renderComps (Comp.root :: n :: ns')
          = '/' :: ['/'].intercalate ((n :: ns').map compText) := by
        rw [renderComps_eq_foldl_map]
        rw [show (Comp.root :: n :: ns').map compText
            = ['/'] :: compText n :: ns'.map compText by simp [compText]]
        rw [List.foldl_cons, hpush0, List.foldl_cons, hstep]
        rw [foldl_pushStr_texts (ns'.map compText) ('/' :: compText n)
            (fun t ht =>
              ⟨(htexts t (by rw [hts]; exact List.mem_cons_of_mem _ ht)).1,
               (htexts t (by rw [hts]; exact List.mem_cons_of_mem _ ht)).2.2⟩)
            (List.cons_ne_nil _ _) hlast]
        rw [hts, intercalate_cons_flatMap]
        simp
      have hsplit : (['/'].intercalate ((n :: ns').map compText)).splitOn '/'
          = (n :: ns').map compText := by
        apply List.splitOn_intercalate
        · intro t ht
          exact (htexts t ht).2.2
        · simp
      have hroot : hasRoot
          ('/' :: ['/'].intercalate ((n :: ns').map compText)) = true := by
        simp [hasRoot]
      have hcur : includeCurDir
          ('/' :: ['/'].intercalate ((n :: ns').map compText)) = false := by
        unfold includeCurDir
        rw [hroot]
        rfl
      have hchunks : pathChunks
          ('/' :: ['/'].intercalate ((n :: ns').map compText))
          = (n :: ns').map compText := by
        unfold pathChunks
        rw [splitOn_cons_sep, hsplit, List.filter_cons]
        have : ¬(([] : List Char) ≠ [] ∧ ([] : List Char) ≠ ['.']) := by simp
        rw [if_neg (by simp)]
        apply List.filter_eq_self.mpr
        intro t ht
        simpa using And.intro (htexts t ht).1 (htexts t ht).2.1
      constructor
      · rw [hrender]
        unfold components
        rw [hroot, hcur, hchunks, comps_map_toComp_compText _ hmns]
        simp
      · rw [hrender]
        simp

/-- C4: path normalization is idempotent — rendering the result of
`naively_normalize_path` back to text and normalizing it again yields
the same result. -/
theorem normalize_idempotent (s : String) :
    naively_normalize_path (normalize_as_text s) = naively_normalize_path s := by
  have hg := normStack_good s.data
  by_cases hp : renderComps (normStack s.data) = []
  · have h1 : naively_normalize_path s = none := by
      simp [naively_normalize_path, hp]
    have h2 : normalize_as_text s = "" := by
      simp [normalize_as_text, h1]
    rw [h1, h2]
    decide
  · have h1 : naively_normalize_path s
        = some (String.mk (renderComps (normStack s.data))) := by
      simp [naively_normalize_path, hp]
    have h2 : normalize_as_text s
        = String.mk (renderComps (normStack s.data)) := by
      simp [normalize_as_text, h1]
    have hstack : normStack (renderComps (normStack s.data))
        = normStack s.data := by
      conv_lhs => rw [normStack]
      rw [(components_renderComps _ hg).1, goodStack_foldl _ hg,
        List.reverse_reverse]
    have h3 : naively_normalize_path (String.mk (renderComps (normStack s.data)))
        = some (String.mk (renderComps (normStack s.data))) := by
      show (if renderComps (normStack (renderComps (normStack s.data))) = []
          then none
          else some (String.mk
            (renderComps (normStack (renderComps (normStack s.data)))))) = _
      rw [hstack, if_neg hp]
    rw [h2, h1, h3]

/-! ## C5: the slug transform is idempotent -/

theorem toNat_ofNat_valid (n : Nat) (h : n < 55296) :
    (Char.ofNat n).toNat = n := by
  rw [Char.ofNat, dif_pos (Or.inl h)]
  simp [Char.ofNatAux, Char.toNat, UInt32.ofNat', UInt32.toNat]

theorem isWordChar_asciiLower (c : Char) :
    isWordChar (asciiLower c) = isWordChar c := by
  unfold asciiLower
  by_cases h : 65 ≤ c.toNat ∧ c.toNat ≤ 90
  · rw [if_pos h]
    have h32 : (Char.ofNat (c.toNat + 32)).toNat = c.toNat + 32 :=
      toNat_ofNat_valid _ (by omega)
    unfold isWordChar
    rw [h32, decide_eq_decide]
    omega
  · rw [if_neg h]

theorem asciiLower_idem (c : Char) :
    asciiLower (asciiLower c) = asciiLower c := by
  unfold asciiLower
  by_cases h : 65 ≤ c.toNat ∧ c.toNat ≤ 90
  · rw [if_pos h]
    have h32 : (Char.ofNat (c.toNat + 32)).toNat = c.toNat + 32 :=
      toNat_ofNat_valid _ (by omega)
    rw [if_neg (by rw [h32]; omega)]
  · rw [if_neg h, if_neg h]

theorem mem_slugWords_wordChars (l : List Char) :
    ∀ w ∈ slugWords l, w ≠ [] ∧ ∀ c ∈ w, isWordChar c = true := by
  intro w hw
  unfold slugWords at hw
  obtain ⟨hw1, hw2⟩ := List.mem_filter.mp hw
  refine ⟨by simpa using hw2, ?_⟩
  intro c hc
  have := splitOnP_chunk_not_sep (fun c => !isWordChar c) l w hw1 c hc
  simpa using this

theorem slugWords_intercalate (ws : List (List Char))
    (hws : ∀ w ∈ ws, w ≠ [] ∧ ∀ c ∈ w, isWordChar c = true) :
    slugWords (['-'].intercalate ws) = ws := by
  induction ws with
  | nil => simp [slugWords, List.intercalate]
  | cons w ws ih =>
    have hw := hws w (List.mem_cons_self w ws)
    have hnotp : ∀ x ∈ w, ¬((fun c => !isWordChar c) x = true) := by
      intro x hx
      simp [hw.2 x hx]
    cases ws with
    | nil =>
      have h1 : ['-'].intercalate [w] = w := by simp [List.intercalate]
      rw [h1]
      unfold slugWords
      rw [List.splitOnP_eq_single _ _ hnotp, List.filter_cons,
        if_pos (by simpa using hw.1)]
      rfl
    | cons w' ws' =>
      have h2 : ['-'].intercalate (w :: w' :: ws')
          = w ++ '-' :: ['-'].intercalate (w' :: ws') := by
        rw [intercalate_cons_flatMap, intercalate_cons_flatMap]
        simp
      rw [h2]
      simp only [slugWords] at ih ⊢
      rw [List.splitOnP_first (fun c => !isWordChar c) w hnotp '-' (by decide),
        List.filter_cons,
        if_pos (by simpa using hw.1),
        ih (fun u hu => hws u (List.mem_cons_of_mem w hu))]

theorem slug_slug (x : List Char) : slug (slug x) = slug x := by
  unfold slug
  have hmapped : ∀ w ∈ (slugWords x).map (List.map asciiLower),
      w ≠ [] ∧ ∀ c ∈ w, isWordChar c = true := by
    intro w hw
    obtain ⟨u, hu, rfl⟩ := List.mem_map.mp hw
    obtain ⟨hu1, hu2⟩ := mem_slugWords_wordChars x u hu
    refine ⟨by simpa using hu1, ?_⟩
    intro c hc
    obtain ⟨d, hd, rfl⟩ := List.mem_map.mp hc
    rw [isWordChar_asciiLower]
    exact hu2 d hd
  rw [slugWords_intercalate _ hmapped, List.map_map]
  congr 1
  apply List.map_congr_left
  intro w _
  show List.map asciiLower (List.map asciiLower w) = List.map asciiLower w
  rw [List.map_map]
  apply List.map_congr_left
  intro c _
  exact asciiLower_idem c

/-- C5: the per-segment slug transform used by `Subject::path` (lower-case,
non-alphanumeric runs collapsed to a single hyphen, leading/trailing
hyphens trimmed; `Root`/`ParentDir` components pass through unchanged) is
idempotent, both on a single segment and on a whole component path. -/
theorem slug_idempotent :
    (∀ x : List Char, slug (slug x) = slug x)
    ∧ ∀ cs : List Comp, (cs.map segSlug).map segSlug = cs.map segSlug := by
  refine ⟨slug_slug, ?_⟩
  intro cs
  rw [List.map_map]
  apply List.map_congr_left
  intro c _
  cases c with
  | named t => simp [segSlug, slug_slug t]
  | root => rfl
  | curDir => rfl
  | parentDir => rfl

/-! ## C3: what `Subject::name` returns -/

/-- C3 counterexample: `Subject::name` does not return the final path
segment verbatim.  For the entity built from `"a.b"`, the stored
`full_name` is `"a.b"`, whose final path segment is `"a.b"`, but `name()`
returns `"a"`: `Path::file_stem` strips the part after the last dot. -/
theorem subject_name_counterexample :
    (Subject.new "a.b").full_name = "a.b"
    ∧ finalSegment (Subject.new "a.b").full_name = some "a.b"
    ∧ Subject.name (Subject.new "a.b") = some "a"
    ∧ Subject.name (Subject.new "a.b")
        ≠ finalSegment (Subject.new "a.b").full_name := by
  refine ⟨?_, ?_, ?_, ?_⟩ <;> decide

/-- C3 (amended): for an entity whose `full_name` is a `'/'`-joined
sequence of ordinary segments, `name()` returns the file stem of the final
segment — the segment verbatim (case and spacing preserved) unless it
contains a dot after its first character, in which case the part from the
last such dot onward is dropped. -/
theorem subject_name_stem (ss : List (List Char)) (t : List Char)
    (hss : ∀ u ∈ ss, goodSeg u) (hlast : ss.getLast? = some t) :
    Subject.name ⟨String.mk (['/'].intercalate ss)⟩
      = some (String.mk (stemOfFileName t)) := by
  have hne : ss ≠ [] := by
    intro h
    rw [h] at hlast
    exact Option.noConfusion hlast
  have hmaptext : (ss.map Comp.named).map compText = ss := by
    rw [List.map_map]
    conv_rhs => rw [← List.map_id ss]
    apply List.map_congr_left
    intro u _
    rfl
  have hgood : GoodStack (ss.map Comp.named) := by
    refine ⟨[], [], ss.map Comp.named, by simp, Or.inl rfl, allPar_nil, ?_,
      fun h => absurd rfl h⟩
    intro c hc
    obtain ⟨u, hu, rfl⟩ := List.mem_map.mp hc
    exact ⟨u, rfl, hss u hu⟩
  have hrender : renderComps (ss.map Comp.named) = ['/'].intercalate ss := by
    rw [renderComps_eq_foldl_map, hmaptext]
    cases ss with
    | nil => exact absurd rfl hne
    | cons s₀ rest =>
      have hs0 := hss s₀ (List.mem_cons_self s₀ rest)
      rw [List.foldl_cons]
      have hp0 : pushStr [] s₀ = s₀ := by
        simp [pushStr, head?_not_sep _ hs0.2.2.2]
      rw [hp0, foldl_pushStr_texts rest s₀
          (fun u hu => ⟨(hss u (List.mem_cons_of_mem _ hu)).1,
            (hss u (List.mem_cons_of_mem _ hu)).2.2.2⟩)
          hs0.1 (getLast?_not_sep _ hs0.1 hs0.2.2.2),
        intercalate_cons_flatMap]
  have hcomp : components (['/'].intercalate ss) = ss.map Comp.named := by
    rw [← hrender]
    exact (components_renderComps _ hgood).1
  show (fileName (['/'].intercalate ss)).map
      (fun u => String.mk (stemOfFileName u)) = _
  unfold fileName
  rw [hcomp, List.getLast?_map, hlast]
  rfl

theorem subject_name_stem_witness :
    (∀ u ∈ [['a', '.', 'b']], goodSeg u)
    ∧ [['a', '.', 'b']].getLast? = some ['a', '.', 'b']
    ∧ Subject.name ⟨String.mk (['/'].intercalate [['a', '.', 'b']])⟩
        = some (String.mk (stemOfFileName ['a', '.', 'b'])) :=
  ⟨by decide, by decide,
    subject_name_stem [['a', '.', 'b']] ['a', '.', 'b'] (by decide) (by decide)⟩

/-! ## C7: an empty-normalizing name is not rejected by `from_shelf` -/

/-- C7: the code's behavior at the failing input.  The name `""`
normalizes to nothing, yet with an existing shelf root `"notes"`,
`Subject::from_shelf` returns `Ok` — the entity resolves to the shelf root
(`"notes/"`) instead of being rejected. -/
theorem from_shelf_empty_name_resolves_to_root :
    naively_normalize_path "" = none
    ∧ Subject.new "" = ⟨""⟩
    ∧ (Subject.new "").path_in_shelf ⟨"notes"⟩ = "notes/"
    ∧ Subject.from_shelf "" ⟨"notes"⟩ ["notes"] = Except.ok ⟨""⟩ := by
  exact ⟨rfl, rfl, rfl, rfl⟩

/-! ## C10: `Shelf::set_path` is atomic on rename failure -/

/-- C10: for a currently valid shelf, a failed rename leaves the stored
path unchanged (the error is returned before the path is updated), and a
successful rename stores the new path and returns the old one. -/
theorem set_path_atomic (sh : Shelf) (dest : String) (fs : List String)
    (renameOk : Bool) (h : sh.is_valid fs = true) :
    (renameOk = false →
      Shelf.set_path sh dest fs renameOk = (sh, Except.error "IoError"))
    ∧ (renameOk = true →
      Shelf.set_path sh dest fs renameOk
        = ({ path := dest }, Except.ok sh.path)) := by
  constructor
  · intro hr
    simp [Shelf.set_path, h, hr]
  · intro hr
    simp [Shelf.set_path, h, hr]

theorem set_path_atomic_witness :
    Shelf.is_valid ⟨"notes"⟩ ["notes"] = true
    ∧ Shelf.set_path ⟨"notes"⟩ "new" ["notes"] false
        = (⟨"notes"⟩, Except.error "IoError")
    ∧ Shelf.set_path ⟨"notes"⟩ "new" ["notes"] true
        = (⟨"new"⟩, Except.ok "notes") := by
  refine ⟨by decide, ?_, ?_⟩
  · exact (set_path_atomic ⟨"notes"⟩ "new" ["notes"] false (by decide)).1 rfl
  · exact (set_path_atomic ⟨"notes"⟩ "new" ["notes"] true (by decide)).2 rfl

/-! ## C2: the compile report accounts for every unit exactly once -/

theorem length_filter_partition {α : Type} (p : α → Bool) (l : List α) :
    (l.filter p).length + (l.filter (fun a => !p a)).length = l.length := by
  induction l with
  | nil => rfl
  | cons a l ih =>
    simp only [List.filter_cons]
    by_cases h : p a
    · rw [if_pos h, if_neg (by simp [h])]
      simp only [List.length_cons]
      omega
    · rw [if_neg h, if_pos (by simp [h])]
      simp only [List.length_cons]
      omega

/-- C2: for a batch of `N` units run with any pool size `K ≤ N` and under
any concurrent completion order (any permutation of the batch), every
submitted unit appears in exactly one of the report's `compiled` and
`failed` lists: the lengths sum to `N`, and per unit the two occurrence
counts sum to its count in the batch — nothing dropped, nothing
double-counted. -/
theorem runBatch_partition (workdir : String) (units : List String)
    (ok : String → Bool) (K : Nat) (order : List String)
    (_hK : K ≤ units.length) (hperm : order.Perm units) :
    (runBatch workdir ok K order).compiled.length
        + (runBatch workdir ok K order).failed.length = units.length
    ∧ ∀ u, (runBatch workdir ok K order).compiled.count u
        + (runBatch workdir ok K order).failed.count u = units.count u := by
  constructor
  · show (order.filter ok).length
        + (order.filter (fun u => !ok u)).length = units.length
    rw [← hperm.length_eq]
    exact length_filter_partition ok order
  · intro u
    show (order.filter ok).count u
        + (order.filter (fun v => !ok v)).count u = units.count u
    rw [← hperm.count_eq]
    by_cases hu : ok u
    · rw [List.count_filter hu]
      have h0 : (order.filter (fun v => !ok v)).count u = 0 := by
        apply List.count_eq_zero.mpr
        intro hmem
        have := (List.mem_filter.mp hmem).2
        simp [hu] at this
      omega
    · have h0 : (order.filter ok).count u = 0 := by
        apply List.count_eq_zero.mpr
        intro hmem
        exact hu (List.mem_filter.mp hmem).2
      rw [h0, List.count_filter (by simp [hu])]
      omega

theorem runBatch_partition_witness :
    1 ≤ (["a", "b"] : List String).length
    ∧ (["b", "a"] : List String).Perm ["a", "b"]
    ∧ (runBatch "w" (fun u => u == "a") 1 ["b", "a"]).compiled.length
        + (runBatch "w" (fun u => u == "a") 1 ["b", "a"]).failed.length
        = (["a", "b"] : List String).length :=
  ⟨by decide, by decide,
    (runBatch_partition "w" ["a", "b"] (fun u => u == "a") 1 ["b", "a"]
      (by decide) (by decide)).1⟩

theorem relWalk_curdir_step_witness :
    ¬(([] : List Comp) = [] ∧ Comp.named ['z'] = Comp.curDir)
    ∧ relWalk [Comp.named ['z']] [Comp.curDir] []
        = relWalk [] [] ([] ++ [Comp.named ['z']]) :=
  ⟨by decide, relWalk_curdir_step (Comp.named ['z']) [] [] [] (by decide)⟩

end TextureNotes
